import Mathlib

/-!
Verification development for the sonata repository's batched streaming
text-to-speech synthesis scheduler.

The repository's visible source is the demonstration script
`src/pyper/lab.py`; the scheduler core (Utterance Splitter, Batch
Assembler, Result Reorderer, Stream Controller) is described by the
design specification but not present under `src/`.  The definitions
below therefore embed the scheduler components from the specification's
words (each such definition is marked `Modelled from the spec:`), and
embed the demonstration script itself directly from `src/pyper/lab.py`.

Floating-point synthesis parameters are modelled as rationals; their
numeric effect is opaque to the scheduler (spec §9), so no claim
depends on this choice.
-/

set_option autoImplicit false

namespace Pyper

/-! ## Data model (spec §3) -/

/-- Modelled from the spec: §3 synthesis parameters carried by each
utterance (speaker, length scale, noise scale, noise-W, sentence
silence); treated as opaque pass-through configuration. -/
structure SynthesisParams where
  speaker_id : Option Nat
  length_scale : Option Rat
  noise_scale : Option Rat
  noise_w : Option Rat
  sentence_silence_seconds : Option Rat
deriving DecidableEq, Repr

/-- Modelled from the spec: §3 Utterance — one unit of text with a
stable sequence index assigned in splitting order. -/
structure Utterance where
  sequence_index : Nat
  raw_text : String
  synthesis_params : SynthesisParams
deriving DecidableEq, Repr

/-- Modelled from the spec: §3 EncodedUtterance — sequence index plus
phoneme/token ids, parameters carried through. -/
structure EncodedUtterance where
  sequence_index : Nat
  token_ids : List Nat
  synthesis_params : SynthesisParams
deriving DecidableEq, Repr

/-- Modelled from the spec: §3 InferenceResult — one waveform per
utterance together with its sequence index and the run-wide sample
rate. -/
structure InferenceResult where
  sequence_index : Nat
  waveform : List Int
  sample_rate : Nat
deriving DecidableEq, Repr

/-- Modelled from the spec: §7 InputError — malformed/unsupported input
text. -/
inductive InputError where
  | malformedEncoding
deriving DecidableEq, Repr

/-- Modelled from the spec: §7 EncodingError — phonemization failure for
a specific utterance. -/
structure EncodingError where
  message : String
deriving DecidableEq, Repr

/-- Modelled from the spec: §4.1 — input text for the Splitter; the
`wellEncoded` flag models whether the text's encoding is well-formed. -/
structure InputText where
  content : String
  wellEncoded : Bool

/-! ## Utterance Splitter (spec §4.1) -/

/-- Terminal (sentence-ending) punctuation, spec §4.1 splitting rule. -/
def isTerminalPunct (c : Char) : Bool :=
  c == '.' || c == '!' || c == '?'

/-- Whitespace characters, used for the empty-input rule of §4.1. -/
def isWsChar (c : Char) : Bool :=
  c == ' ' || c == '\t' || c == '\n' || c == '\r'

/-- Modelled from the spec: §4.1 splitting rule — cut the character
stream at terminal punctuation; a segment whose content before the
punctuation is all whitespace is not an utterance. `acc` holds the
current segment's characters in reverse. -/
def splitChars (acc : List Char) : List Char → List (List Char)
  | [] => if acc.all isWsChar then [] else [acc.reverse]
  | c :: cs =>
    if isTerminalPunct c then
      if acc.all isWsChar then splitChars [] cs
      else (c :: acc).reverse :: splitChars [] cs
    else splitChars (c :: acc) cs

/-- Sentence-like segments of the input text. -/
def sentenceSegments (t : String) : List String :=
  (splitChars [] t.data).map String.mk

/-- Modelled from the spec: §4.1 Utterance Splitter — yields utterances
with dense sequence indices in splitting order; empty or
whitespace-only input yields an empty sequence; malformed encoding
surfaces as an `InputError` with no partial results. -/
def splitUtterances (params : SynthesisParams) (t : InputText) :
    Except InputError (List Utterance) :=
  if t.wellEncoded then
    Except.ok ((sentenceSegments t.content).enum.map
      (fun p => ⟨p.1, p.2, params⟩))
  else
    Except.error InputError.malformedEncoding

/-- Default (all-engine-default) synthesis parameters. -/
def defaultParams : SynthesisParams := ⟨none, none, none, none, none⟩

/-! ## Batch Assembler (spec §4.2) -/

/-- Token-sequence length of an encoded utterance. -/
def tokenLen (u : EncodedUtterance) : Nat := u.token_ids.length

/-- Padded width of a working set: the maximum token length among its
items (0 for an empty set). -/
def batchWidth (b : List EncodedUtterance) : Nat :=
  b.foldr (fun u m => max (tokenLen u) m) 0

/-- Modelled from the spec: §4.2 Batch Assembler algorithm — accumulate
encoded utterances in arrival order into the working set `cur`; close
and emit the current batch when the configured batch size `B` is
reached, when the upstream stream is exhausted with at least one item
pending, or when adding the next item would make the padded width
exceed the maximum token budget `T`. -/
def assembleGo (B T : Nat) (cur : List EncodedUtterance) :
    List EncodedUtterance → List (List EncodedUtterance)
  | [] => if cur = [] then [] else [cur]
  | x :: xs =>
    if cur = [] then assembleGo B T [x] xs
    else if B ≤ cur.length ∨ T < max (batchWidth cur) (tokenLen x) then
      cur :: assembleGo B T [x] xs
    else assembleGo B T (cur ++ [x]) xs

/-- Modelled from the spec: §4.2 — the Batch Assembler run on a whole
encoded-utterance stream. -/
def assemble (B T : Nat) (l : List EncodedUtterance) :
    List (List EncodedUtterance) :=
  assembleGo B T [] l

/-- Token length of the first item of a working set (0 if empty). -/
def firstLen : List EncodedUtterance → Nat
  | [] => 0
  | u :: _ => tokenLen u

/-- Every non-final batch was closed for a reason of spec §4.2: its
size reached `B`, or adding the first item of the following batch would
have pushed the padded width past `T`. -/
def closedProperly (B T : Nat) : List (List EncodedUtterance) → Prop
  | [] => True
  | [_] => True
  | b1 :: b2 :: bs =>
      (B ≤ b1.length ∨ T < max (batchWidth b1) (firstLen b2)) ∧
      closedProperly B T (b2 :: bs)

/-- A working set is admissible when any over-budget item in it is
alone: spec §3 invariant "if a single utterance's token length alone
exceeds the maximum, it forms a batch of size 1". -/
def OkOversize (T : Nat) (b : List EncodedUtterance) : Prop :=
  ∀ u ∈ b, T < tokenLen u → b = [u]

/-- Concrete encoded utterances used by the Assembler witness; the
third one is over the token budget 5 used there. -/
def uttsC6 : List EncodedUtterance :=
  [⟨0, [1, 2], defaultParams⟩, ⟨1, [3], defaultParams⟩,
   ⟨2, [4, 5, 6, 7, 8, 9], defaultParams⟩, ⟨3, [7], defaultParams⟩]

/-! ## Batch padding (spec §3, §4.2) -/

/-- Modelled from the spec: §3 Batch — items in arrival order, the
rectangular padded token matrix, and the parallel true-length
sequence. -/
structure Batch where
  batch_id : Nat
  items : List EncodedUtterance
  padded_token_matrix : List (List Nat)
  item_lengths : List Nat
deriving DecidableEq, Repr

/-- Pad one token row to width `w` with the reserved pad token. -/
def padRow (w pad : Nat) (row : List Nat) : List Nat :=
  row ++ List.replicate (w - row.length) pad

/-- Modelled from the spec: §4.2 padding policy — pad every token
sequence in a batch to the batch's own maximum length using a reserved
pad token; record true lengths so downstream can trim. -/
def mkBatch (pad bid : Nat) (items : List EncodedUtterance) : Batch :=
  ⟨bid, items,
   items.map (fun u => padRow (batchWidth items) pad u.token_ids),
   items.map tokenLen⟩

/-- Placeholder encoded utterance used as a `getD` default. -/
def dummyEnc : EncodedUtterance := ⟨0, [], defaultParams⟩

/-! ## Result Reorderer (spec §3 PendingBuffer, §4.4) -/

/-- The sequence indices present in a pending buffer. -/
def pbKeys {α : Type} (l : List (Nat × α)) : List Nat := l.map Prod.fst

/-- Look a sequence index up in the pending buffer. -/
def pbLookup {α : Type} (k : Nat) : List (Nat × α) → Option α
  | [] => none
  | p :: ps => if p.1 = k then some p.2 else pbLookup k ps

/-- Remove one entry with the given sequence index from the pending
buffer. -/
def pbErase {α : Type} (k : Nat) : List (Nat × α) → List (Nat × α)
  | [] => []
  | p :: ps => if p.1 = k then ps else p :: pbErase k ps

/-- Modelled from the spec: §3 PendingBuffer — the Reorderer's state: a
mapping from sequence_index to buffered results plus
`next_expected_index` (starts at 0, increments by one each time a
result is emitted). -/
structure ReordererState (α : Type) where
  buffer : List (Nat × α)
  next_expected_index : Nat

/-- The Reorderer's initial state: empty buffer, next expected index
0. -/
def initReorderer (α : Type) : ReordererState α := ⟨[], 0⟩

/-- Modelled from the spec: §4.4 drain loop — while PendingBuffer
contains `next_expected_index`, remove and emit it, incrementing
`next_expected_index`.  `fuel` bounds the iteration count; one buffer
entry is removed per iteration, so the buffer size is always enough
fuel. -/
def drainGo {α : Type} : Nat → ReordererState α → List α × ReordererState α
  | 0, st => ([], st)
  | fuel + 1, st =>
    match pbLookup st.next_expected_index st.buffer with
    | none => ([], st)
    | some r =>
      (r :: (drainGo fuel ⟨pbErase st.next_expected_index st.buffer,
              st.next_expected_index + 1⟩).1,
       (drainGo fuel ⟨pbErase st.next_expected_index st.buffer,
              st.next_expected_index + 1⟩).2)

/-- Modelled from the spec: §4.4 — upon a batch completing, insert all
its items into PendingBuffer keyed by sequence_index, then drain. -/
def insertBatch {α : Type} (st : ReordererState α) (b : List (Nat × α)) :
    List α × ReordererState α :=
  drainGo (st.buffer ++ b).length ⟨st.buffer ++ b, st.next_expected_index⟩

/-- The Reorderer consuming completed batches in completion order,
concatenating everything it emits. -/
def processBatches {α : Type} (st : ReordererState α) :
    List (List (Nat × α)) → List α × ReordererState α
  | [] => ([], st)
  | b :: bs =>
    ((insertBatch st b).1 ++ (processBatches (insertBatch st b).2 bs).1,
     (processBatches (insertBatch st b).2 bs).2)

/-- The stream the Reorderer emits over a whole run, starting empty. -/
def reordererRun {α : Type} (order : List (List (Nat × α))) : List α :=
  (processBatches (initReorderer α) order).1

/-- Reorderer invariant: everything below `next_expected_index` has been
emitted, buffered values are determined by their key via `val`, and the
buffer never holds the next expected index after a drain. -/
def RInv {α : Type} (val : Nat → α) (st : ReordererState α) (ins : List Nat) : Prop :=
  (List.range st.next_expected_index ++ pbKeys st.buffer).Perm ins ∧
  (∀ p ∈ st.buffer, p.2 = val p.1) ∧
  pbLookup st.next_expected_index st.buffer = none

/-! ## Pipeline glue (spec §2, §4.3, §7) -/

/-- Modelled from the spec: §2 Phoneme Encoder consumed as an external
capability — encode one utterance with phonemizer `tok`, carrying the
sequence index and parameters through. -/
def encodeUtt (tok : Utterance → List Nat) (u : Utterance) : EncodedUtterance :=
  ⟨u.sequence_index, tok u, u.synthesis_params⟩

/-- Modelled from the spec: §4.3 Inference Executor interface — one
result per item, same batch-local order, sequence index carried
through, run-wide sample rate `sr`. -/
def mkResult (exec : EncodedUtterance → List Int) (sr : Nat)
    (u : EncodedUtterance) : InferenceResult :=
  ⟨u.sequence_index, exec u, sr⟩

/-- Placeholder utterance used as a `getD` default. -/
def dummyUtterance : Utterance := ⟨0, "", defaultParams⟩

/-- The completed batches of the (infallible-encoder) pipeline, in
submission order: split, encode, assemble, execute. -/
def completedBatches (tok : Utterance → List Nat)
    (exec : EncodedUtterance → List Int) (sr B T : Nat)
    (utts : List Utterance) : List (List (Nat × InferenceResult)) :=
  (assemble B T (utts.map (encodeUtt tok))).map
    (fun bb => bb.map (fun u => (u.sequence_index, mkResult exec sr u)))

/-- The result each sequence index must receive in the
infallible-encoder pipeline. -/
def pipelineVal (tok : Utterance → List Nat)
    (exec : EncodedUtterance → List Int) (sr : Nat)
    (utts : List Utterance) : Nat → InferenceResult :=
  fun k => mkResult exec sr (encodeUtt tok (utts.getD k dummyUtterance))

/-- Modelled from the spec: §7 propagation policy — a per-utterance
phonemization failure is attached to that utterance's sequence_index
slot in the Reorderer; each failed utterance contributes one error
entry. -/
def errorSlots (enc : Utterance → Except EncodingError (List Nat))
    (utts : List Utterance) :
    List (List (Nat × Except EncodingError InferenceResult)) :=
  utts.filterMap (fun u =>
    match enc u with
    | Except.error e => some [(u.sequence_index, Except.error e)]
    | Except.ok _ => none)

/-- The successfully encoded utterances of a fallible-encoder run, in
arrival order. -/
def encodeOk (enc : Utterance → Except EncodingError (List Nat))
    (utts : List Utterance) : List EncodedUtterance :=
  utts.filterMap (fun u =>
    match enc u with
    | Except.ok toks => some ⟨u.sequence_index, toks, u.synthesis_params⟩
    | Except.error _ => none)

/-- Completed work of the fallible-encoder pipeline: error slots for
failed utterances plus executed batches of the successfully encoded
ones. -/
def fallibleCompleted (enc : Utterance → Except EncodingError (List Nat))
    (exec : EncodedUtterance → List Int) (sr B T : Nat)
    (utts : List Utterance) :
    List (List (Nat × Except EncodingError InferenceResult)) :=
  errorSlots enc utts ++
    (assemble B T (encodeOk enc utts)).map
      (fun bb => bb.map (fun u => (u.sequence_index,
        Except.ok (mkResult exec sr u))))

/-- The stream item each sequence index must receive in the
fallible-encoder pipeline: the encoding error at failed indices, the
inference result elsewhere. -/
def fallibleVal (enc : Utterance → Except EncodingError (List Nat))
    (exec : EncodedUtterance → List Int) (sr : Nat)
    (utts : List Utterance) : Nat → Except EncodingError InferenceResult :=
  fun k =>
    match enc (utts.getD k dummyUtterance) with
    | Except.error e => Except.error e
    | Except.ok toks =>
        Except.ok (mkResult exec sr
          ⟨(utts.getD k dummyUtterance).sequence_index, toks,
           (utts.getD k dummyUtterance).synthesis_params⟩)

/-- Concrete utterances: the split of "One. Two. Three.". -/
def uttsW3 : List Utterance :=
  [⟨0, "One.", defaultParams⟩, ⟨1, " Two.", defaultParams⟩,
   ⟨2, " Three.", defaultParams⟩]

/-- Concrete utterances: the split of "Ab. Cd.". -/
def uttsW2 : List Utterance :=
  [⟨0, "Ab.", defaultParams⟩, ⟨1, " Cd.", defaultParams⟩]

/-- Concrete fallible encoder failing exactly on "Ab.". -/
def encW (u : Utterance) : Except EncodingError (List Nat) :=
  if u.raw_text = "Ab." then Except.error ⟨"g2p failure"⟩
  else Except.ok [1, 2]

/-! ## Stream Controller: lookahead, backpressure, cancellation
(spec §4.5, §5) -/

/-- Modelled from the spec: §4.5/§5 Stream Controller state — batches
not yet submitted (in submission order), batches submitted to the
Executor and still running, the Reorderer's state, the batches whose
results were handed to the Reorderer, the results delivered to the
caller, the number of submissions so far, and the cancellation flag. -/
structure SchedState (α : Type) where
  toSubmit : List (List (Nat × α))
  inFlight : List (List (Nat × α))
  ro : ReordererState α
  completed : List (List (Nat × α))
  emitted : List α
  submitted : Nat
  cancelled : Bool

/-- A completed batch counts as drained once every one of its sequence
indices is below the Reorderer's next expected index, i.e. all its
results have been emitted to the caller. -/
def batchDrained {α : Type} (ro : ReordererState α) (b : List (Nat × α)) : Bool :=
  b.all (fun p => p.1 < ro.next_expected_index)

/-- The number of outstanding batches: submitted to the Executor but
whose results have not yet all been emitted to the caller. -/
def outstanding {α : Type} (st : SchedState α) : Nat :=
  st.inFlight.length +
    (st.completed.filter (fun b => !(batchDrained st.ro b))).length

/-- Modelled from the spec: §5 Controller scheduling — `submit` is
guarded by the cancellation flag and the lookahead limit `L`;
`complete` hands a finished batch to the Reorderer and delivers what it
drains; `completeCancelled` lets an in-flight batch finish after
cancellation but discards its results; `cancel` flags cancellation. -/
inductive SchedStep {α : Type} (L : Nat) : SchedState α → SchedState α → Prop where
  | submit (st : SchedState α) (b : List (Nat × α))
      (rest : List (List (Nat × α))) :
      st.cancelled = false → outstanding st < L → st.toSubmit = b :: rest →
      SchedStep L st ⟨rest, st.inFlight ++ [b], st.ro, st.completed,
        st.emitted, st.submitted + 1, false⟩
  | complete (st : SchedState α) (pre : List (List (Nat × α)))
      (b : List (Nat × α)) (post : List (List (Nat × α))) :
      st.cancelled = false → st.inFlight = pre ++ b :: post →
      SchedStep L st ⟨st.toSubmit, pre ++ post, (insertBatch st.ro b).2,
        st.completed ++ [b], st.emitted ++ (insertBatch st.ro b).1,
        st.submitted, false⟩
  | completeCancelled (st : SchedState α) (pre : List (List (Nat × α)))
      (b : List (Nat × α)) (post : List (List (Nat × α))) :
      st.cancelled = true → st.inFlight = pre ++ b :: post →
      SchedStep L st ⟨st.toSubmit, pre ++ post, st.ro, st.completed,
        st.emitted, st.submitted, true⟩
  | cancel (st : SchedState α) :
      SchedStep L st ⟨st.toSubmit, st.inFlight, st.ro, st.completed,
        st.emitted, st.submitted, true⟩

/-- The Controller's initial state over a list of assembled batches. -/
def initSched {α : Type} (batches : List (List (Nat × α))) : SchedState α :=
  ⟨batches, [], initReorderer α, [], [], 0, false⟩

/-! ## The demonstration script src/pyper/lab.py (C10) -/

/-- One top-level effect of the script `src/pyper/lab.py`. -/
inductive LabStep where
  | setEnv (key value : String)
  | constructPiper (configPath modelPath : String)
  | synthesizeBatched (text : String) (batchSize : Nat)
  | printNext

/-- The Piper voice-model handle as constructed by `pyper.Piper`: the
two explicit path arguments plus the ambient process environment
captured at construction time. -/
structure PiperHandle where
  configPath : String
  modelPath : String
  ambientEnv : List (String × String)

/-- Process state threaded through the script: the environment-variable
map and the constructed model handle, if any. -/
structure ProcState where
  env : List (String × String)
  piper : Option PiperHandle

/-- `os.environ[k] = v`: prepend the binding (lookup finds the newest). -/
def setEnvVar (k v : String) (env : List (String × String)) :
    List (String × String) :=
  (k, v) :: env

/-- Environment-variable lookup, newest binding first. -/
def envLookup (k : String) : List (String × String) → Option String
  | [] => none
  | p :: ps => if p.1 = k then some p.2 else envLookup k ps

/-- Execute one script step against the process state. -/
def runStep (st : ProcState) : LabStep → ProcState
  | LabStep.setEnv k v => ⟨setEnvVar k v st.env, st.piper⟩
  | LabStep.constructPiper c m => ⟨st.env, some ⟨c, m, st.env⟩⟩
  | LabStep.synthesizeBatched _ _ => st
  | LabStep.printNext => st

/-- Execute a script from an initial process state. -/
def runScript (init : ProcState) (steps : List LabStep) : ProcState :=
  steps.foldl runStep init

/-- String literal from src/pyper/lab.py line 6. -/
def ortDylibPath : String := "D:\\onnxruntime_libs\\x86\\onnxruntime.dll"

/-- String literal from src/pyper/lab.py line 7. -/
def espeakDataDir : String :=
  "D:\\projects\\blindpandas\\piper-rs\\deps\\windows\\espeak-ng-build"

/-- String literal from src/pyper/lab.py line 11. -/
def amyConfigPath : String :=
  "D:\\Piper_TTS_Voices\\voices\\voice-en-us-amy-low\\en-us-amy-low.onnx.json"

/-- String literal from src/pyper/lab.py line 12. -/
def amyModelPath : String :=
  "D:\\Piper_TTS_Voices\\voices\\voice-en-us-amy-low\\en-us-amy-low.onnx"

/-- String literal from src/pyper/lab.py line 16. -/
def labText : String :=
  "Who are you? said the Caterpillar. Replied Alice , rather shyly, I hardly know, sir!"

/-- The top-level statements of src/pyper/lab.py, in program order:
two environment mutations (lines 6-7), the `Piper(...)` construction
(lines 10-13), `p.synthesize_batched(text, None, None, None, 3)`
(line 18), and `print(next(ret))` (line 19). -/
def labScript : List LabStep :=
  [LabStep.setEnv "ORT_DYLIB_PATH" ortDylibPath,
   LabStep.setEnv "PIPER_ESPEAKNG_DATA_DIRECTORY" espeakDataDir,
   LabStep.constructPiper amyConfigPath amyModelPath,
   LabStep.synthesizeBatched labText 3,
   LabStep.printNext]

/-! ## Theorems -/

theorem ws_not_punct (c : Char) (h : isWsChar c = true) :
    isTerminalPunct c = false := by
  simp only [isWsChar, Bool.or_eq_true, beq_iff_eq] at h
  rcases h with ((h | h) | h) | h <;> subst h <;> decide

theorem splitChars_all_ws :
    ∀ (rest acc : List Char), acc.all isWsChar = true →
      rest.all isWsChar = true → splitChars acc rest = [] := by
  intro rest
  induction rest with
  | nil => intro acc hacc _; simp [splitChars, hacc]
  | cons c cs ih =>
    intro acc hacc hrest
    simp only [List.all_cons, Bool.and_eq_true] at hrest
    simp only [splitChars, ws_not_punct c hrest.1]
    exact ih (c :: acc) (by simp [List.all_cons, hacc, hrest.1]) hrest.2

/-- C9: empty or whitespace-only input yields an empty utterance
sequence; malformed encoding yields an `InputError` and no partial
results. -/
theorem splitter_empty_and_malformed (params : SynthesisParams) (t : InputText) :
    (t.wellEncoded = true → t.content.data.all isWsChar = true →
      splitUtterances params t = Except.ok []) ∧
    (t.wellEncoded = false →
      splitUtterances params t = Except.error InputError.malformedEncoding) := by
  constructor
  · intro hw hws
    simp [splitUtterances, hw, sentenceSegments,
      splitChars_all_ws t.content.data [] rfl hws]
  · intro hw
    simp [splitUtterances, hw]

/-- C9 witness: a whitespace-only input splits to no utterances, and a
malformed input fails with `InputError.malformedEncoding`. -/
theorem splitter_empty_and_malformed_witness :
    splitUtterances defaultParams ⟨" \t ", true⟩ = Except.ok [] ∧
    splitUtterances defaultParams ⟨"Hi.", false⟩
      = Except.error InputError.malformedEncoding :=
  ⟨(splitter_empty_and_malformed defaultParams ⟨" \t ", true⟩).1 rfl (by decide),
   (splitter_empty_and_malformed defaultParams ⟨"Hi.", false⟩).2 rfl⟩

theorem batchWidth_cons (v : EncodedUtterance) (vs : List EncodedUtterance) :
    batchWidth (v :: vs) = max (tokenLen v) (batchWidth vs) := rfl

theorem assembleGo_nil (B T : Nat) (cur : List EncodedUtterance) :
    assembleGo B T cur [] = if cur = [] then [] else [cur] := rfl

theorem assembleGo_cons (B T : Nat) (cur x : _) (xs : List EncodedUtterance) :
    assembleGo B T cur (x :: xs) =
      if cur = [] then assembleGo B T [x] xs
      else if B ≤ cur.length ∨ T < max (batchWidth cur) (tokenLen x) then
        cur :: assembleGo B T [x] xs
      else assembleGo B T (cur ++ [x]) xs := rfl

theorem tokenLen_le_batchWidth (b : List EncodedUtterance) :
    ∀ u ∈ b, tokenLen u ≤ batchWidth b := by
  induction b with
  | nil => intro u hu; cases hu
  | cons v vs ih =>
    intro u hu
    rw [batchWidth_cons]
    rcases List.mem_cons.mp hu with hu | hu
    · subst hu; exact le_max_left _ _
    · exact le_trans (ih u hu) (le_max_right _ _)

theorem batchWidth_le (T : Nat) (b : List EncodedUtterance)
    (h : ∀ u ∈ b, tokenLen u ≤ T) : batchWidth b ≤ T := by
  induction b with
  | nil => exact Nat.zero_le T
  | cons v vs ih =>
    rw [batchWidth_cons]
    exact max_le (h v (by simp)) (ih (fun u hu => h u (by simp [hu])))

theorem batchWidth_mem (b : List EncodedUtterance) (h : b ≠ []) :
    batchWidth b ∈ b.map tokenLen := by
  induction b with
  | nil => exact absurd rfl h
  | cons v vs ih =>
    by_cases hvs : vs = []
    · subst hvs
      simp [batchWidth_cons, batchWidth]
    · rcases le_total (batchWidth vs) (tokenLen v) with hle | hle
      · rw [batchWidth_cons, max_eq_left hle]
        simp
      · rw [batchWidth_cons, max_eq_right hle]
        simp only [List.map_cons, List.mem_cons]
        exact Or.inr (ih hvs)

theorem assembleGo_flatten (B T : Nat) :
    ∀ (rest cur : List EncodedUtterance),
      (assembleGo B T cur rest).flatten = cur ++ rest := by
  intro rest
  induction rest with
  | nil =>
    intro cur
    by_cases h : cur = []
    · rw [assembleGo_nil, if_pos h, h]; rfl
    · rw [assembleGo_nil, if_neg h]; simp
  | cons x xs ih =>
    intro cur
    by_cases h : cur = []
    · subst h; rw [assembleGo_cons, if_pos rfl]; simp [ih]
    · by_cases hc : B ≤ cur.length ∨ T < max (batchWidth cur) (tokenLen x)
      · rw [assembleGo_cons, if_neg h, if_pos hc]; simp [ih]
      · rw [assembleGo_cons, if_neg h, if_neg hc, ih]; simp

theorem assembleGo_head_ext (B T : Nat) :
    ∀ (rest cur : List EncodedUtterance), cur ≠ [] →
      ∃ e bs, assembleGo B T cur rest = (cur ++ e) :: bs := by
  intro rest
  induction rest with
  | nil =>
    intro cur h
    exact ⟨[], [], by rw [assembleGo_nil, if_neg h]; simp⟩
  | cons x xs ih =>
    intro cur h
    by_cases hc : B ≤ cur.length ∨ T < max (batchWidth cur) (tokenLen x)
    · exact ⟨[], assembleGo B T [x] xs,
        by rw [assembleGo_cons, if_neg h, if_pos hc]; simp⟩
    · obtain ⟨e, bs, he⟩ := ih (cur ++ [x]) (by simp)
      exact ⟨[x] ++ e, bs,
        by rw [assembleGo_cons, if_neg h, if_neg hc, he]; simp⟩

theorem assembleGo_sizes (B T : Nat) (hB : 1 ≤ B) :
    ∀ (rest cur : List EncodedUtterance), cur.length ≤ B →
      ∀ b ∈ assembleGo B T cur rest, 1 ≤ b.length ∧ b.length ≤ B := by
  intro rest
  induction rest with
  | nil =>
    intro cur hcur b hb
    by_cases h : cur = []
    · rw [assembleGo_nil, if_pos h] at hb
      cases hb
    · rw [assembleGo_nil, if_neg h] at hb
      simp only [List.mem_singleton] at hb
      subst hb
      exact ⟨List.length_pos.mpr h, hcur⟩
  | cons x xs ih =>
    intro cur hcur b hb
    by_cases h : cur = []
    · subst h
      rw [assembleGo_cons, if_pos rfl] at hb
      exact ih [x] (by simpa using hB) b hb
    · by_cases hc : B ≤ cur.length ∨ T < max (batchWidth cur) (tokenLen x)
      · rw [assembleGo_cons, if_neg h, if_pos hc] at hb
        rcases List.mem_cons.mp hb with hb | hb
        · subst hb; exact ⟨List.length_pos.mpr h, hcur⟩
        · exact ih [x] (by simpa using hB) b hb
      · rw [assembleGo_cons, if_neg h, if_neg hc] at hb
        have hlt : cur.length < B := by
          rcases Nat.lt_or_ge cur.length B with hlt | hge
          · exact hlt
          · exact absurd (Or.inl hge) hc
        exact ih (cur ++ [x]) (by simp; omega) b hb

theorem assembleGo_closed (B T : Nat) :
    ∀ (rest cur : List EncodedUtterance),
      closedProperly B T (assembleGo B T cur rest) := by
  intro rest
  induction rest with
  | nil =>
    intro cur
    by_cases h : cur = []
    · rw [assembleGo_nil, if_pos h]; trivial
    · rw [assembleGo_nil, if_neg h]; trivial
  | cons x xs ih =>
    intro cur
    by_cases h : cur = []
    · subst h; rw [assembleGo_cons, if_pos rfl]; exact ih [x]
    · by_cases hc : B ≤ cur.length ∨ T < max (batchWidth cur) (tokenLen x)
      · rw [assembleGo_cons, if_neg h, if_pos hc]
        obtain ⟨e, bs, he⟩ := assembleGo_head_ext B T xs [x] (by simp)
        rw [he]
        refine ⟨?_, ?_⟩
        · have hfl : firstLen ([x] ++ e) = tokenLen x := by simp [firstLen]
          rw [hfl]
          exact hc
        · have hcp := ih [x]
          rw [he] at hcp
          exact hcp
      · rw [assembleGo_cons, if_neg h, if_neg hc]
        exact ih (cur ++ [x])

theorem assembleGo_oversize (B T : Nat) :
    ∀ (rest cur : List EncodedUtterance), OkOversize T cur →
      ∀ b ∈ assembleGo B T cur rest, OkOversize T b := by
  intro rest
  induction rest with
  | nil =>
    intro cur hcur b hb
    by_cases h : cur = []
    · rw [assembleGo_nil, if_pos h] at hb
      cases hb
    · rw [assembleGo_nil, if_neg h] at hb
      simp only [List.mem_singleton] at hb
      subst hb; exact hcur
  | cons x xs ih =>
    intro cur hcur b hb
    have hx : OkOversize T [x] := by
      intro u hu _
      simp only [List.mem_singleton] at hu
      subst hu; rfl
    by_cases h : cur = []
    · subst h
      rw [assembleGo_cons, if_pos rfl] at hb
      exact ih [x] hx b hb
    · by_cases hc : B ≤ cur.length ∨ T < max (batchWidth cur) (tokenLen x)
      · rw [assembleGo_cons, if_neg h, if_pos hc] at hb
        rcases List.mem_cons.mp hb with hb | hb
        · subst hb; exact hcur
        · exact ih [x] hx b hb
      · rw [assembleGo_cons, if_neg h, if_neg hc] at hb
        push_neg at hc
        have hwx : max (batchWidth cur) (tokenLen x) ≤ T := hc.2
        refine ih (cur ++ [x]) ?_ b hb
        intro u hu hTu
        exfalso
        rcases List.mem_append.mp hu with hu | hu
        · exact absurd hTu
            (not_lt.mpr (le_trans (tokenLen_le_batchWidth cur u hu)
              (le_trans (le_max_left _ _) hwx)))
        · simp only [List.mem_singleton] at hu
          subst hu
          exact absurd hTu (not_lt.mpr (le_trans (le_max_right _ _) hwx))

/-- C6: the Assembler's batches are filled strictly in arrival order
(their concatenation is the input stream), each batch has between 1 and
`B` items, every batch boundary is forced by the size or token-budget
rule (or stream exhaustion for the final batch), an over-budget
utterance forms a batch of size 1, and any batch with at least two
items respects the padded-width budget `T`. -/
theorem assembler_batching (B T : Nat) (hB : 1 ≤ B) (l : List EncodedUtterance) :
    (assemble B T l).flatten = l ∧
    (∀ b ∈ assemble B T l, 1 ≤ b.length ∧ b.length ≤ B) ∧
    closedProperly B T (assemble B T l) ∧
    (∀ b ∈ assemble B T l, ∀ u ∈ b, T < tokenLen u → b = [u]) ∧
    (∀ b ∈ assemble B T l, 2 ≤ b.length → batchWidth b ≤ T) := by
  refine ⟨by simpa using assembleGo_flatten B T l [],
    fun b hb => assembleGo_sizes B T hB l [] (by simp [hB]) b hb,
    assembleGo_closed B T l [],
    fun b hb => assembleGo_oversize B T l [] (by intro u hu; cases hu) b hb,
    ?_⟩
  intro b hb h2
  refine batchWidth_le T b ?_
  intro u hu
  by_contra hTu
  have hsing := assembleGo_oversize B T l [] (by intro v hv; cases hv) b hb u hu
    (lt_of_not_le hTu)
  rw [hsing] at h2
  simp at h2

/-- C6 witness: a concrete run of the Assembler with batch size 2 and
token budget 5 over four encoded utterances, one of them over budget. -/
theorem assembler_batching_witness :
    (assemble 2 5 uttsC6).flatten = uttsC6 ∧
    (∀ b ∈ assemble 2 5 uttsC6, 1 ≤ b.length ∧ b.length ≤ 2) ∧
    closedProperly 2 5 (assemble 2 5 uttsC6) ∧
    (∀ b ∈ assemble 2 5 uttsC6, ∀ u ∈ b, 5 < tokenLen u → b = [u]) ∧
    (∀ b ∈ assemble 2 5 uttsC6, 2 ≤ b.length → batchWidth b ≤ 5) :=
  assembler_batching 2 5 (by decide) uttsC6

/-- C7: the padded token matrix of a Batch is rectangular — one row per
item, every row as wide as the batch's maximum token length — shorter
rows are padded with the reserved pad token, and `item_lengths` records
each item's true unpadded length in parallel. -/
theorem batch_padding (pad bid : Nat) (items : List EncodedUtterance)
    (hne : items ≠ []) :
    (mkBatch pad bid items).items = items ∧
    (mkBatch pad bid items).padded_token_matrix.length = items.length ∧
    (mkBatch pad bid items).item_lengths = items.map tokenLen ∧
    batchWidth items ∈ items.map tokenLen ∧
    (∀ u ∈ items, tokenLen u ≤ batchWidth items) ∧
    (∀ i, i < items.length →
      (mkBatch pad bid items).padded_token_matrix.getD i []
          = (items.getD i dummyEnc).token_ids
            ++ List.replicate
                (batchWidth items - tokenLen (items.getD i dummyEnc)) pad ∧
      ((mkBatch pad bid items).padded_token_matrix.getD i []).length
          = batchWidth items) := by
  refine ⟨rfl, by simp [mkBatch], rfl, batchWidth_mem items hne,
    tokenLen_le_batchWidth items, ?_⟩
  intro i hi
  have hm : (mkBatch pad bid items).padded_token_matrix
      = items.map (fun u => padRow (batchWidth items) pad u.token_ids) := rfl
  have hi' : i < (items.map
      (fun u => padRow (batchWidth items) pad u.token_ids)).length := by
    simpa using hi
  constructor
  · rw [hm, List.getD_eq_getElem _ _ hi', List.getElem_map,
      List.getD_eq_getElem _ _ hi]
    rfl
  · rw [hm, List.getD_eq_getElem _ _ hi', List.getElem_map]
    have hle : tokenLen (items.getD i dummyEnc) ≤ batchWidth items := by
      rw [List.getD_eq_getElem _ _ hi]
      exact tokenLen_le_batchWidth items _ (List.getElem_mem hi)
    rw [List.getD_eq_getElem _ _ hi] at hle
    simp only [padRow, List.length_append, List.length_replicate]
    exact Nat.add_sub_cancel' hle

/-- C7 witness: the padding property at a concrete batch of four
encoded utterances. -/
theorem batch_padding_witness :
    (mkBatch 0 0 uttsC6).items = uttsC6 ∧
    (mkBatch 0 0 uttsC6).padded_token_matrix.length = uttsC6.length ∧
    (mkBatch 0 0 uttsC6).item_lengths = uttsC6.map tokenLen ∧
    batchWidth uttsC6 ∈ uttsC6.map tokenLen ∧
    (∀ u ∈ uttsC6, tokenLen u ≤ batchWidth uttsC6) ∧
    (∀ i, i < uttsC6.length →
      (mkBatch 0 0 uttsC6).padded_token_matrix.getD i []
          = (uttsC6.getD i dummyEnc).token_ids
            ++ List.replicate
                (batchWidth uttsC6 - tokenLen (uttsC6.getD i dummyEnc)) 0 ∧
      ((mkBatch 0 0 uttsC6).padded_token_matrix.getD i []).length
          = batchWidth uttsC6) :=
  batch_padding 0 0 uttsC6 (by decide)

theorem pbLookup_perm_cons {α : Type} (k : Nat) (v : α) :
    ∀ (l : List (Nat × α)), pbLookup k l = some v →
      l.Perm ((k, v) :: pbErase k l) := by
  intro l
  induction l with
  | nil => intro h; cases h
  | cons p ps ih =>
    intro h
    by_cases hp : p.1 = k
    · rw [pbLookup, if_pos hp] at h
      rw [pbErase, if_pos hp]
      have hpv : p = (k, v) := by
        cases h
        exact Prod.ext hp rfl
      rw [hpv]
    · rw [pbLookup, if_neg hp] at h
      rw [pbErase, if_neg hp]
      exact ((ih h).cons p).trans (List.Perm.swap _ _ _)

theorem pbLookup_eq_none {α : Type} (k : Nat) :
    ∀ (l : List (Nat × α)), pbLookup k l = none ↔ k ∉ pbKeys l := by
  intro l
  induction l with
  | nil => simp [pbLookup, pbKeys]
  | cons p ps ih =>
    by_cases hp : p.1 = k
    · rw [pbLookup, if_pos hp]
      simp [pbKeys, hp]
    · rw [pbLookup, if_neg hp]
      simp only [pbKeys, List.map_cons, List.mem_cons]
      rw [ih]
      constructor
      · intro h hmem
        rcases hmem with hmem | hmem
        · exact hp hmem.symm
        · exact h hmem
      · intro h hmem
        exact h (Or.inr hmem)

theorem drainGo_spec {α : Type} :
    ∀ (fuel : Nat) (st : ReordererState α), st.buffer.length ≤ fuel →
      (drainGo fuel st).2.next_expected_index
          = st.next_expected_index + (drainGo fuel st).1.length ∧
      st.buffer.Perm
        ((List.range' st.next_expected_index (drainGo fuel st).1.length).zip
            (drainGo fuel st).1 ++ (drainGo fuel st).2.buffer) ∧
      pbLookup (drainGo fuel st).2.next_expected_index
          (drainGo fuel st).2.buffer = none := by
  intro fuel
  induction fuel with
  | zero =>
    intro st hf
    have hbuf : st.buffer = [] := List.length_eq_zero.mp (Nat.le_zero.mp hf)
    refine ⟨by simp [drainGo], by simp [drainGo, hbuf], ?_⟩
    simp [drainGo, hbuf, pbLookup]
  | succ fuel ih =>
    intro st hf
    cases hl : pbLookup st.next_expected_index st.buffer with
    | none =>
      refine ⟨?_, ?_, ?_⟩ <;> simp [drainGo, hl]
    | some r =>
      have hperm := pbLookup_perm_cons st.next_expected_index r st.buffer hl
      have hlen : (pbErase st.next_expected_index st.buffer).length + 1
          = st.buffer.length := by
        have := hperm.length_eq
        simpa using this.symm
      have hf' : (pbErase st.next_expected_index st.buffer).length ≤ fuel := by
        omega
      have ihs := ih ⟨pbErase st.next_expected_index st.buffer,
        st.next_expected_index + 1⟩ hf'
      have hunfold : drainGo (fuel + 1) st
          = (r :: (drainGo fuel ⟨pbErase st.next_expected_index st.buffer,
                st.next_expected_index + 1⟩).1,
             (drainGo fuel ⟨pbErase st.next_expected_index st.buffer,
                st.next_expected_index + 1⟩).2) := by
        rw [drainGo, hl]
      rw [hunfold]
      refine ⟨?_, ?_, ?_⟩
      · have ihs1 : (drainGo fuel ⟨pbErase st.next_expected_index st.buffer,
              st.next_expected_index + 1⟩).2.next_expected_index
            = st.next_expected_index + 1
              + (drainGo fuel ⟨pbErase st.next_expected_index st.buffer,
                  st.next_expected_index + 1⟩).1.length := ihs.1
        simp only [List.length_cons]
        rw [ihs1]
        omega
      · simp only [List.length_cons, List.range'_succ, List.zip_cons_cons,
          List.cons_append]
        exact hperm.trans (ihs.2.1.cons _)
      · exact ihs.2.2

/-- The one-step insert-and-drain behaviour of the Reorderer: the next
expected index advances by exactly the number of emitted results, the
pre-step buffer plus the completed batch is exactly the emitted
(index, result) pairs at consecutive indices followed by the post-step
buffer, and draining stops only when the next expected index is
missing. -/
theorem insertBatch_spec {α : Type} (st : ReordererState α) (b : List (Nat × α)) :
    (insertBatch st b).2.next_expected_index
        = st.next_expected_index + (insertBatch st b).1.length ∧
    (st.buffer ++ b).Perm
      ((List.range' st.next_expected_index (insertBatch st b).1.length).zip
          (insertBatch st b).1 ++ (insertBatch st b).2.buffer) ∧
    pbLookup (insertBatch st b).2.next_expected_index
        (insertBatch st b).2.buffer = none :=
  drainGo_spec (st.buffer ++ b).length
    ⟨st.buffer ++ b, st.next_expected_index⟩ le_rfl

theorem processBatches_nil {α : Type} (st : ReordererState α) :
    processBatches st [] = ([], st) := rfl

theorem processBatches_cons {α : Type} (st : ReordererState α)
    (b : List (Nat × α)) (bs : List (List (Nat × α))) :
    processBatches st (b :: bs)
      = ((insertBatch st b).1 ++ (processBatches (insertBatch st b).2 bs).1,
         (processBatches (insertBatch st b).2 bs).2) := rfl

theorem range_add_range' (n m : Nat) :
    List.range (n + m) = List.range n ++ List.range' n m := by
  have h := List.range'_append 0 n m 1
  simp only [one_mul, Nat.zero_add] at h
  rw [List.range_eq_range', List.range_eq_range', h, Nat.add_comm]

theorem range'_append_one (s m n : Nat) :
    List.range' s m ++ List.range' (s + m) n = List.range' s (n + m) := by
  have h := List.range'_append s m n 1
  simp only [one_mul] at h
  exact h

theorem zip_range_eq_map {α : Type} (val : Nat → α) :
    ∀ (out : List α) (s : Nat),
      (∀ p ∈ (List.range' s out.length).zip out, p.2 = val p.1) →
      out = (List.range' s out.length).map val := by
  intro out
  induction out with
  | nil => intro s _; rfl
  | cons a out ih =>
    intro s h
    simp only [List.length_cons, List.range'_succ, List.zip_cons_cons,
      List.map_cons] at h ⊢
    have ha : a = val s := h (s, a) (by simp)
    have hrest := ih (s + 1) (fun p hp => h p (by simp [hp]))
    rw [← ha, ← hrest]

theorem insertBatch_inv {α : Type} (val : Nat → α) (st : ReordererState α)
    (ins : List Nat) (b : List (Nat × α))
    (hinv : RInv val st ins) (hb : ∀ p ∈ b, p.2 = val p.1) :
    RInv val (insertBatch st b).2 (ins ++ pbKeys b) ∧
    (insertBatch st b).1
      = (List.range' st.next_expected_index (insertBatch st b).1.length).map val ∧
    (insertBatch st b).2.next_expected_index
      = st.next_expected_index + (insertBatch st b).1.length := by
  obtain ⟨hkeys, hvals, _⟩ := hinv
  obtain ⟨hnext, hperm, hnone'⟩ := insertBatch_spec st b
  have hall : ∀ p ∈ st.buffer ++ b, p.2 = val p.1 := by
    intro p hp
    rcases List.mem_append.mp hp with h | h
    · exact hvals p h
    · exact hb p h
  have hallzip : ∀ p ∈ (List.range' st.next_expected_index
      (insertBatch st b).1.length).zip (insertBatch st b).1, p.2 = val p.1 := by
    intro p hp
    exact hall p (hperm.mem_iff.mpr (List.mem_append_left _ hp))
  have hmap := zip_range_eq_map val (insertBatch st b).1
    st.next_expected_index hallzip
  have hkeys' : (pbKeys st.buffer ++ pbKeys b).Perm
      (List.range' st.next_expected_index (insertBatch st b).1.length
        ++ pbKeys (insertBatch st b).2.buffer) := by
    have hmapped := hperm.map Prod.fst
    rw [List.map_append, List.map_append,
      List.map_fst_zip _ _ (by simp)] at hmapped
    exact hmapped
  refine ⟨⟨?_, ?_, hnone'⟩, hmap, hnext⟩
  · rw [hnext, range_add_range', List.append_assoc]
    have p1 : (List.range st.next_expected_index
        ++ (List.range' st.next_expected_index (insertBatch st b).1.length
            ++ pbKeys (insertBatch st b).2.buffer)).Perm
        (List.range st.next_expected_index
          ++ (pbKeys st.buffer ++ pbKeys b)) :=
      List.Perm.append_left _ hkeys'.symm
    refine p1.trans ?_
    rw [← List.append_assoc]
    exact hkeys.append_right _
  · intro p hp
    exact hall p (hperm.mem_iff.mpr (List.mem_append_right _ hp))

theorem processBatches_inv {α : Type} (val : Nat → α) :
    ∀ (order : List (List (Nat × α))) (st : ReordererState α) (ins : List Nat),
      RInv val st ins → (∀ b ∈ order, ∀ p ∈ b, p.2 = val p.1) →
      RInv val (processBatches st order).2 (ins ++ (order.map pbKeys).flatten) ∧
      (processBatches st order).1
        = (List.range' st.next_expected_index
            ((processBatches st order).2.next_expected_index
              - st.next_expected_index)).map val ∧
      st.next_expected_index ≤ (processBatches st order).2.next_expected_index := by
  intro order
  induction order with
  | nil =>
    intro st ins hinv _
    refine ⟨by simpa [processBatches_nil] using hinv, ?_, le_rfl⟩
    simp [processBatches_nil]
  | cons b bs ih =>
    intro st ins hinv hval
    have hb := hval b (by simp)
    have hbs : ∀ b' ∈ bs, ∀ p ∈ b', p.2 = val p.1 :=
      fun b' hb' => hval b' (by simp [hb'])
    obtain ⟨hinv1, hmap1, hnext1⟩ := insertBatch_inv val st ins b hinv hb
    obtain ⟨hinv2, hmap2, hle2⟩ :=
      ih (insertBatch st b).2 (ins ++ pbKeys b) hinv1 hbs
    have hle1 : st.next_expected_index
        ≤ (insertBatch st b).2.next_expected_index := by
      rw [hnext1]; omega
    refine ⟨?_, ?_, ?_⟩
    · rw [processBatches_cons]
      have heq : ins ++ ((b :: bs).map pbKeys).flatten
          = (ins ++ pbKeys b) ++ (bs.map pbKeys).flatten := by
        simp [List.append_assoc]
      rw [heq]
      exact hinv2
    · rw [processBatches_cons]
      simp only
      rw [hmap1, hmap2, ← List.map_append]
      congr 1
      rw [hnext1] at hle2 ⊢
      have harr := range'_append_one st.next_expected_index
        (insertBatch st b).1.length
        ((processBatches (insertBatch st b).2 bs).2.next_expected_index
          - (st.next_expected_index + (insertBatch st b).1.length))
      rw [harr]
      have hcount : (processBatches (insertBatch st b).2 bs).2.next_expected_index
            - (st.next_expected_index + (insertBatch st b).1.length)
            + (insertBatch st b).1.length
          = (processBatches (insertBatch st b).2 bs).2.next_expected_index
            - st.next_expected_index := by
        omega
      rw [hcount]
    · rw [processBatches_cons]
      exact le_trans hle1 hle2

/-- The Reorderer's end-to-end guarantee: if the completed batches
carry, across the whole run, exactly the keys `0..N-1` (in any order,
any batch grouping) with values determined by the keys, then the
emitted stream is exactly `val 0, val 1, ..., val (N-1)` and the
pending buffer ends empty. -/
theorem processBatches_complete {α : Type} (val : Nat → α) (N : Nat)
    (order : List (List (Nat × α)))
    (hval : ∀ b ∈ order, ∀ p ∈ b, p.2 = val p.1)
    (hkeys : ((order.map pbKeys).flatten).Perm (List.range N)) :
    reordererRun order = (List.range N).map val ∧
    (processBatches (initReorderer α) order).2.buffer = [] ∧
    (processBatches (initReorderer α) order).2.next_expected_index = N := by
  have hinv0 : RInv val (initReorderer α) [] := by
    refine ⟨by simp [initReorderer, pbKeys], ?_, rfl⟩
    intro p hp
    cases hp
  obtain ⟨⟨hkeysF, _, hnoneF⟩, hmapF, _⟩ :=
    processBatches_inv val order (initReorderer α) [] hinv0 hval
  have hk : (List.range
        (processBatches (initReorderer α) order).2.next_expected_index
      ++ pbKeys (processBatches (initReorderer α) order).2.buffer).Perm
      (List.range N) := hkeysF.trans (by simpa using hkeys)
  have hlen : (processBatches (initReorderer α) order).2.next_expected_index
      + (pbKeys (processBatches (initReorderer α) order).2.buffer).length
      = N := by
    have hl := hk.length_eq
    simpa using hl
  have hge : N ≤ (processBatches (initReorderer α) order).2.next_expected_index := by
    by_contra hlt
    push_neg at hlt
    have hmem : (processBatches (initReorderer α) order).2.next_expected_index
        ∈ List.range N := List.mem_range.mpr hlt
    have hmem' := hk.mem_iff.mpr hmem
    rcases List.mem_append.mp hmem' with h | h
    · exact absurd (List.mem_range.mp h) (lt_irrefl _)
    · exact ((pbLookup_eq_none _ _).mp hnoneF) h
  have hnextF : (processBatches (initReorderer α) order).2.next_expected_index
      = N := le_antisymm (by omega) hge
  have hbufF : (processBatches (initReorderer α) order).2.buffer = [] := by
    have h0 : ((processBatches (initReorderer α) order).2.buffer).length = 0 := by
      have := hlen
      simp only [pbKeys, List.length_map] at this
      omega
    exact List.length_eq_zero.mp h0
  refine ⟨?_, hbufF, hnextF⟩
  have hrun : reordererRun order = (processBatches (initReorderer α) order).1 := rfl
  rw [hrun, hmapF, hnextF]
  have h0 : (initReorderer α).next_expected_index = 0 := rfl
  rw [h0, List.range_eq_range']
  simp

/-- C3: the Reorderer implements exactly the spec §4.4 step:
`next_expected_index` starts at 0; when a batch completes all its items
are inserted into PendingBuffer keyed by sequence_index (the pre-step
buffer plus the batch is, up to permutation, the emitted pairs followed
by the post-step buffer); the emitted keys are the consecutive indices
starting at `next_expected_index`, which advances by one per emitted
result; and the drain loop stops exactly when the buffer no longer
contains the next expected index. -/
theorem reorderer_implements_spec {α : Type} (st : ReordererState α)
    (b : List (Nat × α)) :
    (initReorderer α).next_expected_index = 0 ∧
    (insertBatch st b).2.next_expected_index
        = st.next_expected_index + (insertBatch st b).1.length ∧
    (st.buffer ++ b).Perm
      ((List.range' st.next_expected_index (insertBatch st b).1.length).zip
          (insertBatch st b).1 ++ (insertBatch st b).2.buffer) ∧
    pbLookup (insertBatch st b).2.next_expected_index
        (insertBatch st b).2.buffer = none :=
  ⟨rfl, insertBatch_spec st b⟩

/-- C3 witness: the step property at a concrete state (buffer holding
index 2, next expected 1) completed by a batch carrying index 1. -/
theorem reorderer_implements_spec_witness :
    (initReorderer Nat).next_expected_index = 0 ∧
    (insertBatch (⟨[(2, 5)], 1⟩ : ReordererState Nat) [(1, 9)]).2.next_expected_index
        = 1 + (insertBatch (⟨[(2, 5)], 1⟩ : ReordererState Nat) [(1, 9)]).1.length ∧
    (([(2, 5)] : List (Nat × Nat)) ++ [(1, 9)]).Perm
      ((List.range' 1
          (insertBatch (⟨[(2, 5)], 1⟩ : ReordererState Nat) [(1, 9)]).1.length).zip
          (insertBatch (⟨[(2, 5)], 1⟩ : ReordererState Nat) [(1, 9)]).1
        ++ (insertBatch (⟨[(2, 5)], 1⟩ : ReordererState Nat) [(1, 9)]).2.buffer) ∧
    pbLookup (insertBatch (⟨[(2, 5)], 1⟩ : ReordererState Nat) [(1, 9)]).2.next_expected_index
        (insertBatch (⟨[(2, 5)], 1⟩ : ReordererState Nat) [(1, 9)]).2.buffer = none :=
  reorderer_implements_spec (⟨[(2, 5)], 1⟩ : ReordererState Nat) [(1, 9)]

theorem split_map_seq (params : SynthesisParams) (t : InputText)
    (utts : List Utterance) (hs : splitUtterances params t = Except.ok utts) :
    utts.map Utterance.sequence_index = List.range utts.length := by
  rw [splitUtterances] at hs
  by_cases hw : t.wellEncoded = true
  · rw [if_pos hw] at hs
    have hu := Except.ok.inj hs
    subst hu
    rw [List.map_map]
    have hcomp : (Utterance.sequence_index ∘
        fun p : Nat × String => (⟨p.1, p.2, params⟩ : Utterance)) = Prod.fst :=
      rfl
    rw [hcomp, List.enum_map_fst]
    congr 1
    simp

  · rw [if_neg hw] at hs
    cases hs

theorem split_get_seq (params : SynthesisParams) (t : InputText)
    (utts : List Utterance) (hs : splitUtterances params t = Except.ok utts) :
    ∀ (i : Nat) (h : i < utts.length), (utts.get ⟨i, h⟩).sequence_index = i := by
  intro i h
  have hmap := split_map_seq params t utts hs
  have h' : i < (utts.map Utterance.sequence_index).length := by simpa using h
  have h'' : i < (List.range utts.length).length := by simpa using h
  have h1 : (utts.map Utterance.sequence_index).getD i 0
      = (List.range utts.length).getD i 0 := by rw [hmap]
  rw [List.getD_eq_getElem _ _ h', List.getD_eq_getElem _ _ h'',
    List.getElem_map, List.getElem_range] at h1
  rw [List.get_eq_getElem]
  exact h1

theorem mem_split_getD (params : SynthesisParams) (t : InputText)
    (utts : List Utterance) (hs : splitUtterances params t = Except.ok utts)
    (u : Utterance) (hu : u ∈ utts) :
    u.sequence_index < utts.length ∧
    utts.getD u.sequence_index dummyUtterance = u := by
  obtain ⟨n, hn⟩ := List.mem_iff_get.mp hu
  have hseq : u.sequence_index = n.1 := by
    rw [← hn]
    exact split_get_seq params t utts hs n.1 n.2
  refine ⟨by rw [hseq]; exact n.2, ?_⟩
  rw [hseq, List.getD_eq_get _ _ n.2, ← hn]

theorem assemble_flatten (B T : Nat) (l : List EncodedUtterance) :
    (assemble B T l).flatten = l := by
  have h := assembleGo_flatten B T l []
  simpa [assemble] using h

theorem completedBatches_val (tok : Utterance → List Nat)
    (exec : EncodedUtterance → List Int) (sr B T : Nat)
    (params : SynthesisParams) (t : InputText) (utts : List Utterance)
    (hs : splitUtterances params t = Except.ok utts) :
    ∀ b ∈ completedBatches tok exec sr B T utts, ∀ p ∈ b,
      p.2 = pipelineVal tok exec sr utts p.1 := by
  intro b hb p hp
  obtain ⟨bb, hbb, rfl⟩ := List.mem_map.mp hb
  obtain ⟨u, hu, rfl⟩ := List.mem_map.mp hp
  have humem : u ∈ utts.map (encodeUtt tok) := by
    rw [← assemble_flatten B T (utts.map (encodeUtt tok))]
    exact List.mem_flatten.mpr ⟨bb, hbb, hu⟩
  obtain ⟨u₀, hu₀, rfl⟩ := List.mem_map.mp humem
  have hgd := (mem_split_getD params t utts hs u₀ hu₀).2
  show mkResult exec sr (encodeUtt tok u₀)
      = pipelineVal tok exec sr utts (encodeUtt tok u₀).sequence_index
  have hseq : (encodeUtt tok u₀).sequence_index = u₀.sequence_index := rfl
  rw [hseq, pipelineVal, hgd]

theorem completedBatches_keys (tok : Utterance → List Nat)
    (exec : EncodedUtterance → List Int) (sr B T : Nat)
    (params : SynthesisParams) (t : InputText) (utts : List Utterance)
    (hs : splitUtterances params t = Except.ok utts) :
    ((completedBatches tok exec sr B T utts).map pbKeys).flatten
      = List.range utts.length := by
  rw [completedBatches, List.map_map]
  have hcomp : (pbKeys ∘ fun bb : List EncodedUtterance =>
      bb.map (fun u => (u.sequence_index, mkResult exec sr u)))
      = fun bb => bb.map EncodedUtterance.sequence_index := by
    funext bb
    simp only [Function.comp_apply, pbKeys, List.map_map]
    rfl
  rw [hcomp, ← List.map_flatten, assemble_flatten, List.map_map]
  have hcomp2 : (EncodedUtterance.sequence_index ∘ encodeUtt tok)
      = Utterance.sequence_index := rfl
  rw [hcomp2, split_map_seq params t utts hs]

theorem pipeline_run_eq (tok : Utterance → List Nat)
    (exec : EncodedUtterance → List Int) (sr B T : Nat)
    (params : SynthesisParams) (t : InputText) (utts : List Utterance)
    (order : List (List (Nat × InferenceResult)))
    (hs : splitUtterances params t = Except.ok utts)
    (hord : order.Perm (completedBatches tok exec sr B T utts)) :
    reordererRun order
      = (List.range utts.length).map (pipelineVal tok exec sr utts) := by
  refine (processBatches_complete (pipelineVal tok exec sr utts) utts.length
    order ?_ ?_).1
  · intro b hb p hp
    exact completedBatches_val tok exec sr B T params t utts hs b
      (hord.mem_iff.mp hb) p hp
  · have hflat := (hord.map pbKeys).flatten
    rw [completedBatches_keys tok exec sr B T params t utts hs] at hflat
    exact hflat

theorem pipelineVal_seq (tok : Utterance → List Nat)
    (exec : EncodedUtterance → List Int) (sr : Nat)
    (params : SynthesisParams) (t : InputText) (utts : List Utterance)
    (hs : splitUtterances params t = Except.ok utts)
    (k : Nat) (hk : k < utts.length) :
    (pipelineVal tok exec sr utts k).sequence_index = k := by
  show (utts.getD k dummyUtterance).sequence_index = k
  rw [List.getD_eq_get _ _ hk]
  exact split_get_seq params t utts hs k hk

/-- C1: for every input text, the sequence of sequence_index values in
the emitted stream is exactly `0..N-1`, in strictly increasing order
with no gaps and no repeats, where N is the number of utterances the
Splitter produced — regardless of the order in which the batches
complete. -/
theorem emitted_indices_exact (tok : Utterance → List Nat)
    (exec : EncodedUtterance → List Int) (sr B T : Nat)
    (params : SynthesisParams) (t : InputText) (utts : List Utterance)
    (order : List (List (Nat × InferenceResult)))
    (hs : splitUtterances params t = Except.ok utts)
    (hord : order.Perm (completedBatches tok exec sr B T utts)) :
    (reordererRun order).map InferenceResult.sequence_index
      = List.range utts.length := by
  rw [pipeline_run_eq tok exec sr B T params t utts order hs hord,
    List.map_map]
  have hcong : (List.range utts.length).map
      (InferenceResult.sequence_index ∘ pipelineVal tok exec sr utts)
      = (List.range utts.length).map id := by
    refine List.map_congr_left ?_
    intro k hk
    exact pipelineVal_seq tok exec sr params t utts hs k (List.mem_range.mp hk)
  rw [hcong, List.map_id]

/-- C1 witness: the pipeline over "One. Two. Three." with batch size 2,
where the two batches complete in reversed order, still emits indices
0, 1, 2. -/
theorem emitted_indices_exact_witness :
    (reordererRun ((completedBatches (fun _ => [1]) (fun _ => [0]) 22050 2 100
        uttsW3).reverse)).map InferenceResult.sequence_index
      = List.range uttsW3.length :=
  emitted_indices_exact (fun _ => [1]) (fun _ => [0]) 22050 2 100
    defaultParams ⟨"One. Two. Three.", true⟩ uttsW3 _ rfl
    (List.reverse_perm _)

/-- C2: two runs of the same pipeline whose batch completion orders are
(arbitrary) permutations of each other emit identical result streams,
ascending by sequence_index. -/
theorem reordering_invariance (tok : Utterance → List Nat)
    (exec : EncodedUtterance → List Int) (sr B T : Nat)
    (params : SynthesisParams) (t : InputText) (utts : List Utterance)
    (order₁ order₂ : List (List (Nat × InferenceResult)))
    (hs : splitUtterances params t = Except.ok utts)
    (h1 : order₁.Perm (completedBatches tok exec sr B T utts))
    (h2 : order₂.Perm (completedBatches tok exec sr B T utts)) :
    reordererRun order₁ = reordererRun order₂ ∧
    List.Pairwise (fun r s : InferenceResult =>
      r.sequence_index < s.sequence_index) (reordererRun order₁) := by
  have e1 := pipeline_run_eq tok exec sr B T params t utts order₁ hs h1
  have e2 := pipeline_run_eq tok exec sr B T params t utts order₂ hs h2
  refine ⟨e1.trans e2.symm, ?_⟩
  rw [e1, List.pairwise_map]
  refine List.Pairwise.imp_of_mem ?_ (List.pairwise_lt_range utts.length)
  intro a b ha hb hab
  rw [pipelineVal_seq tok exec sr params t utts hs a (List.mem_range.mp ha),
    pipelineVal_seq tok exec sr params t utts hs b (List.mem_range.mp hb)]
  exact hab

/-- C2 witness: over "One. Two. Three." with batch size 2, the
submission-order run and the reversed-completion-order run emit the
same ascending stream. -/
theorem reordering_invariance_witness :
    reordererRun (completedBatches (fun _ => [1]) (fun _ => [0]) 22050 2 100
        uttsW3)
      = reordererRun ((completedBatches (fun _ => [1]) (fun _ => [0]) 22050 2 100
        uttsW3).reverse) ∧
    List.Pairwise (fun r s : InferenceResult =>
      r.sequence_index < s.sequence_index)
      (reordererRun (completedBatches (fun _ => [1]) (fun _ => [0]) 22050 2 100
        uttsW3)) :=
  reordering_invariance (fun _ => [1]) (fun _ => [0]) 22050 2 100
    defaultParams ⟨"One. Two. Three.", true⟩ uttsW3 _ _ rfl
    (List.Perm.refl _) (List.reverse_perm _)

theorem fallibleCompleted_val (enc : Utterance → Except EncodingError (List Nat))
    (exec : EncodedUtterance → List Int) (sr B T : Nat)
    (params : SynthesisParams) (t : InputText) (utts : List Utterance)
    (hs : splitUtterances params t = Except.ok utts) :
    ∀ b ∈ fallibleCompleted enc exec sr B T utts, ∀ p ∈ b,
      p.2 = fallibleVal enc exec sr utts p.1 := by
  intro b hb p hp
  rcases List.mem_append.mp hb with hb | hb
  · obtain ⟨u, hu, heq⟩ := List.mem_filterMap.mp hb
    cases henc : enc u with
    | error e =>
      rw [henc] at heq
      have hbv := Option.some.inj heq
      subst hbv
      simp only [List.mem_singleton] at hp
      subst hp
      show Except.error e = fallibleVal enc exec sr utts u.sequence_index
      have hgd := (mem_split_getD params t utts hs u hu).2
      rw [fallibleVal, hgd, henc]
    | ok toks =>
      rw [henc] at heq
      cases heq
  · obtain ⟨bb, hbb, rfl⟩ := List.mem_map.mp hb
    obtain ⟨u, hu, rfl⟩ := List.mem_map.mp hp
    have humem : u ∈ encodeOk enc utts := by
      rw [← assemble_flatten B T (encodeOk enc utts)]
      exact List.mem_flatten.mpr ⟨bb, hbb, hu⟩
    obtain ⟨u₀, hu₀, heq⟩ := List.mem_filterMap.mp humem
    cases henc : enc u₀ with
    | ok toks =>
      rw [henc] at heq
      have huv := Option.some.inj heq
      subst huv
      show Except.ok (mkResult exec sr _) = fallibleVal enc exec sr utts _
      have hgd := (mem_split_getD params t utts hs u₀ hu₀).2
      show Except.ok (mkResult exec sr ⟨u₀.sequence_index, toks,
          u₀.synthesis_params⟩)
        = fallibleVal enc exec sr utts u₀.sequence_index
      rw [fallibleVal, hgd, henc]
    | error e =>
      rw [henc] at heq
      cases heq

theorem fallible_keys (enc : Utterance → Except EncodingError (List Nat)) :
    ∀ (utts : List Utterance),
      (((errorSlots enc utts).map pbKeys).flatten
        ++ (encodeOk enc utts).map EncodedUtterance.sequence_index).Perm
        (utts.map Utterance.sequence_index) := by
  intro utts
  induction utts with
  | nil => simp [errorSlots, encodeOk]
  | cons u rest ih =>
    cases henc : enc u with
    | error e =>
      have h1 : errorSlots enc (u :: rest)
          = [(u.sequence_index, Except.error e)] :: errorSlots enc rest := by
        rw [errorSlots, List.filterMap_cons, henc]
        rfl
      have h2 : encodeOk enc (u :: rest) = encodeOk enc rest := by
        rw [encodeOk, List.filterMap_cons, henc]
        rfl
      rw [h1, h2, List.map_cons, List.flatten_cons, List.map_cons]
      have hhead : pbKeys [(u.sequence_index,
          (Except.error e : Except EncodingError InferenceResult))]
          = [u.sequence_index] := rfl
      rw [hhead, List.cons_append, List.cons_append]
      exact ih.cons u.sequence_index
    | ok toks =>
      have h1 : errorSlots enc (u :: rest) = errorSlots enc rest := by
        rw [errorSlots, List.filterMap_cons, henc]
        rfl
      have h2 : encodeOk enc (u :: rest)
          = (⟨u.sequence_index, toks, u.synthesis_params⟩ : EncodedUtterance)
            :: encodeOk enc rest := by
        rw [encodeOk, List.filterMap_cons, henc]
        rfl
      rw [h1, h2, List.map_cons, List.map_cons]
      exact List.perm_middle.trans (ih.cons u.sequence_index)

theorem fallibleCompleted_keys (enc : Utterance → Except EncodingError (List Nat))
    (exec : EncodedUtterance → List Int) (sr B T : Nat)
    (params : SynthesisParams) (t : InputText) (utts : List Utterance)
    (hs : splitUtterances params t = Except.ok utts) :
    (((fallibleCompleted enc exec sr B T utts).map pbKeys).flatten).Perm
      (List.range utts.length) := by
  rw [fallibleCompleted, List.map_append, List.flatten_append]
  have h2 : (((assemble B T (encodeOk enc utts)).map
      (fun bb => bb.map (fun u => (u.sequence_index,
        (Except.ok (mkResult exec sr u)
          : Except EncodingError InferenceResult))))).map pbKeys).flatten
      = (encodeOk enc utts).map EncodedUtterance.sequence_index := by
    rw [List.map_map]
    have hcomp : (pbKeys ∘ fun bb : List EncodedUtterance =>
        bb.map (fun u => (u.sequence_index,
          (Except.ok (mkResult exec sr u)
            : Except EncodingError InferenceResult))))
        = fun bb => bb.map EncodedUtterance.sequence_index := by
      funext bb
      simp only [Function.comp_apply, pbKeys, List.map_map]
      rfl
    rw [hcomp, ← List.map_flatten, assemble_flatten]
  rw [h2]
  refine (fallible_keys enc utts).trans ?_
  rw [split_map_seq params t utts hs]

/-- C8: with a fallible phonemizer, every sequence index still receives
exactly one stream item in order — the `EncodingError` at the failed
utterance's own index, a successful result at every other index; the
failure neither aborts the stream nor blocks other indices. -/
theorem error_isolated (enc : Utterance → Except EncodingError (List Nat))
    (exec : EncodedUtterance → List Int) (sr B T : Nat)
    (params : SynthesisParams) (t : InputText) (utts : List Utterance)
    (order : List (List (Nat × Except EncodingError InferenceResult)))
    (hs : splitUtterances params t = Except.ok utts)
    (hord : order.Perm (fallibleCompleted enc exec sr B T utts)) :
    reordererRun order
      = (List.range utts.length).map (fallibleVal enc exec sr utts) ∧
    (reordererRun order).length = utts.length ∧
    ∀ (j : Nat) (hj : j < utts.length),
      (∀ e, enc (utts.get ⟨j, hj⟩) = Except.error e →
        (reordererRun order).getD j (Except.error ⟨""⟩) = Except.error e) ∧
      (∀ toks, enc (utts.get ⟨j, hj⟩) = Except.ok toks →
        (reordererRun order).getD j (Except.error ⟨""⟩)
          = Except.ok (mkResult exec sr ⟨j, toks,
              (utts.get ⟨j, hj⟩).synthesis_params⟩)) := by
  have hrun : reordererRun order
      = (List.range utts.length).map (fallibleVal enc exec sr utts) := by
    refine (processBatches_complete (fallibleVal enc exec sr utts) utts.length
      order ?_ ?_).1
    · intro b hb p hp
      exact fallibleCompleted_val enc exec sr B T params t utts hs b
        (hord.mem_iff.mp hb) p hp
    · have hflat := (hord.map pbKeys).flatten
      exact hflat.trans
        (fallibleCompleted_keys enc exec sr B T params t utts hs)
  refine ⟨hrun, by simp [hrun], ?_⟩
  intro j hj
  have hj' : j < ((List.range utts.length).map
      (fallibleVal enc exec sr utts)).length := by simpa using hj
  have hj'' : j < (List.range utts.length).length := by simpa using hj
  have hgetD : (reordererRun order).getD j (Except.error ⟨""⟩)
      = fallibleVal enc exec sr utts j := by
    rw [hrun, List.getD_eq_getElem _ _ hj', List.getElem_map,
      List.getElem_range]
  have hgd : utts.getD j dummyUtterance = utts.get ⟨j, hj⟩ :=
    List.getD_eq_get _ _ hj
  have hseq : (utts.get ⟨j, hj⟩).sequence_index = j :=
    split_get_seq params t utts hs j hj
  constructor
  · intro e he
    rw [hgetD, fallibleVal, hgd, he]
  · intro toks htoks
    rw [hgetD, fallibleVal, hgd, htoks, hseq]

/-- C8 witness: over "Ab. Cd." where phonemization of "Ab." fails, the
stream delivers the `EncodingError` at index 0 and a successful result
at index 1, in order. -/
theorem error_isolated_witness :
    (reordererRun (fallibleCompleted encW (fun _ => [0]) 22050 2 100 uttsW2)).getD
        0 (Except.error ⟨""⟩) = Except.error ⟨"g2p failure"⟩ ∧
    (reordererRun (fallibleCompleted encW (fun _ => [0]) 22050 2 100 uttsW2)).getD
        1 (Except.error ⟨""⟩)
      = Except.ok (mkResult (fun _ => [0]) 22050 ⟨1, [1, 2],
          (uttsW2.get ⟨1, by decide⟩).synthesis_params⟩) ∧
    (reordererRun (fallibleCompleted encW (fun _ => [0]) 22050 2 100 uttsW2)).length
      = uttsW2.length := by
  have h := error_isolated encW (fun _ => [0]) 22050 2 100
    defaultParams ⟨"Ab. Cd.", true⟩ uttsW2 _ rfl (List.Perm.refl _)
  refine ⟨(h.2.2 0 (by decide)).1 ⟨"g2p failure"⟩ rfl, ?_, h.2.1⟩
  exact (h.2.2 1 (by decide)).2 [1, 2] rfl

theorem filter_length_mono {α : Type} (l : List α) (p q : α → Bool)
    (h : ∀ a ∈ l, p a = true → q a = true) :
    (l.filter p).length ≤ (l.filter q).length := by
  induction l with
  | nil => simp
  | cons a as ih =>
    have ih' := ih (fun b hb hpb => h b (List.mem_cons.mpr (Or.inr hb)) hpb)
    cases hpa : p a
    · cases hqa : q a
      · simpa [List.filter_cons, hpa, hqa] using ih'
      · simp only [List.filter_cons, hpa, hqa]
        simp only [Bool.false_eq_true, if_false, if_true, List.length_cons]
        omega
    · have hqa : q a = true := h a (List.mem_cons.mpr (Or.inl rfl)) hpa
      simp only [List.filter_cons, hpa, hqa, if_true, List.length_cons]
      omega

theorem batchDrained_mono {α : Type} (ro ro' : ReordererState α)
    (h : ro.next_expected_index ≤ ro'.next_expected_index)
    (b : List (Nat × α)) (hd : batchDrained ro b = true) :
    batchDrained ro' b = true := by
  rw [batchDrained, List.all_eq_true] at hd ⊢
  intro p hp
  have hpd := hd p hp
  simp only [decide_eq_true_eq] at hpd ⊢
  omega

theorem insertBatch_next_le {α : Type} (st : ReordererState α)
    (b : List (Nat × α)) :
    st.next_expected_index ≤ (insertBatch st b).2.next_expected_index := by
  rw [(insertBatch_spec st b).1]
  omega

theorem schedStep_outstanding {α : Type} (L : Nat) (st st' : SchedState α)
    (h : SchedStep L st st') (hb : outstanding st ≤ L) :
    outstanding st' ≤ L := by
  cases h with
  | submit b rest hcanc hout hts =>
    rw [outstanding] at hout ⊢
    simp only [List.length_append, List.length_singleton]
    omega
  | complete pre b post hcanc hif =>
    rw [outstanding] at hb ⊢
    simp only
    have hlen : st.inFlight.length = pre.length + post.length + 1 := by
      rw [hif]; simp; omega
    have hfilter : ((st.completed ++ [b]).filter
          (fun bb => !(batchDrained (insertBatch st.ro b).2 bb))).length
        ≤ (st.completed.filter (fun bb => !(batchDrained st.ro bb))).length
          + 1 := by
      rw [List.filter_append, List.length_append]
      have h1 : (st.completed.filter
            (fun bb => !(batchDrained (insertBatch st.ro b).2 bb))).length
          ≤ (st.completed.filter
            (fun bb => !(batchDrained st.ro bb))).length := by
        refine filter_length_mono _ _ _ ?_
        intro bb _ hnb
        cases hdr : batchDrained st.ro bb
        · simp
        · have hdr' := batchDrained_mono st.ro (insertBatch st.ro b).2
            (insertBatch_next_le st.ro b) bb hdr
          rw [hdr'] at hnb
          cases hnb
      have h2 : (([b].filter
            (fun bb => !(batchDrained (insertBatch st.ro b).2 bb))).length ≤ 1) := by
        refine le_trans (List.length_filter_le _ _) ?_
        simp
      omega
    simp only [List.length_append] at hb hfilter ⊢
    omega
  | completeCancelled pre b post hcanc hif =>
    rw [outstanding] at hb ⊢
    simp only
    have hlen : st.inFlight.length = pre.length + post.length + 1 := by
      rw [hif]; simp; omega
    simp only [List.length_append] at hb ⊢
    omega
  | cancel =>
    rw [outstanding] at hb ⊢
    exact hb

/-- C4: in every state reachable by the Controller, the number of
outstanding batches (submitted but not yet fully emitted) never exceeds
the lookahead limit `L`; moreover any step that submits a new batch
requires strictly fewer than `L` outstanding batches, i.e. no
submission happens at capacity until emission frees it. -/
theorem backpressure_bound {α : Type} (L : Nat)
    (batches : List (List (Nat × α))) (st' : SchedState α)
    (h : Relation.ReflTransGen (SchedStep L) (initSched batches) st') :
    outstanding st' ≤ L ∧
    (∀ st'' : SchedState α, SchedStep L st' st'' →
      st''.submitted ≠ st'.submitted → outstanding st' < L) := by
  constructor
  · induction h with
    | refl =>
      have h0 : outstanding (initSched batches) = 0 := rfl
      rw [h0]
      exact Nat.zero_le L
    | tail hsteps hstep ih => exact schedStep_outstanding L _ _ hstep ih
  · intro st'' hstep hsub
    cases hstep with
    | submit b rest hc hout hts => exact hout
    | complete pre b post hc hif => exact absurd rfl hsub
    | completeCancelled pre b post hc hif => exact absurd rfl hsub
    | cancel => exact absurd rfl hsub

/-- C4 witness: the bound at the initial state of a one-batch run with
lookahead 1. -/
theorem backpressure_bound_witness :
    outstanding (initSched ([[(0, 42)]] : List (List (Nat × Nat)))) ≤ 1 ∧
    (∀ st'' : SchedState Nat,
      SchedStep 1 (initSched ([[(0, 42)]] : List (List (Nat × Nat)))) st'' →
      st''.submitted ≠ (initSched ([[(0, 42)]] : List (List (Nat × Nat)))).submitted →
      outstanding (initSched ([[(0, 42)]] : List (List (Nat × Nat)))) < 1) :=
  backpressure_bound 1 [[(0, 42)]] _ Relation.ReflTransGen.refl

theorem schedStep_cancelled {α : Type} (L : Nat) (st st' : SchedState α)
    (h : SchedStep L st st') (hc : st.cancelled = true) :
    st'.cancelled = true ∧ st'.submitted = st.submitted ∧
    st'.emitted = st.emitted := by
  cases h with
  | submit b rest hcanc hout hts => rw [hc] at hcanc; cases hcanc
  | complete pre b post hcanc hif => rw [hc] at hcanc; cases hcanc
  | completeCancelled pre b post hcanc hif => exact ⟨rfl, rfl, rfl⟩
  | cancel => exact ⟨rfl, rfl, rfl⟩

/-- C5: once cancellation is flagged, every subsequent run of the
Controller keeps the flag, submits no further batch, and delivers no
further result to the caller; in-flight batches may still finish (a
`completeCancelled` step is available for each), and finishing discards
their results. -/
theorem cancellation_no_results {α : Type} (L : Nat) (st st' : SchedState α)
    (hc : st.cancelled = true)
    (h : Relation.ReflTransGen (SchedStep L) st st') :
    (st'.cancelled = true ∧ st'.submitted = st.submitted ∧
      st'.emitted = st.emitted) ∧
    (∀ (pre : List (List (Nat × α))) (b : List (Nat × α))
        (post : List (List (Nat × α))), st'.inFlight = pre ++ b :: post →
      ∃ st'' : SchedState α, SchedStep L st' st'' ∧
        st''.inFlight = pre ++ post ∧ st''.emitted = st'.emitted) := by
  have main : st'.cancelled = true ∧ st'.submitted = st.submitted ∧
      st'.emitted = st.emitted := by
    induction h with
    | refl => exact ⟨hc, rfl, rfl⟩
    | tail h1 hstep ih =>
      obtain ⟨ihc, ihs, ihe⟩ := ih
      obtain ⟨c', s', e'⟩ := schedStep_cancelled L _ _ hstep ihc
      exact ⟨c', s'.trans ihs, e'.trans ihe⟩
  refine ⟨main, ?_⟩
  intro pre b post hif
  exact ⟨_, SchedStep.completeCancelled st' pre b post main.1 hif, rfl, rfl⟩

/-- C5 witness: a concrete cancelled state with one in-flight batch —
no new submission or delivery occurs, and the in-flight batch can drain
with its results discarded. -/
theorem cancellation_no_results_witness :
    ((⟨[], [[(0, 7)]], initReorderer Nat, [], [], 0, true⟩
        : SchedState Nat).cancelled = true ∧
      (⟨[], [[(0, 7)]], initReorderer Nat, [], [], 0, true⟩
        : SchedState Nat).submitted
        = (⟨[], [[(0, 7)]], initReorderer Nat, [], [], 0, true⟩
            : SchedState Nat).submitted ∧
      (⟨[], [[(0, 7)]], initReorderer Nat, [], [], 0, true⟩
        : SchedState Nat).emitted
        = (⟨[], [[(0, 7)]], initReorderer Nat, [], [], 0, true⟩
            : SchedState Nat).emitted) ∧
    (∀ (pre : List (List (Nat × Nat))) (b : List (Nat × Nat))
        (post : List (List (Nat × Nat))),
      (⟨[], [[(0, 7)]], initReorderer Nat, [], [], 0, true⟩
        : SchedState Nat).inFlight = pre ++ b :: post →
      ∃ st'' : SchedState Nat,
        SchedStep 1 (⟨[], [[(0, 7)]], initReorderer Nat, [], [], 0, true⟩
          : SchedState Nat) st'' ∧
        st''.inFlight = pre ++ post ∧
        st''.emitted = (⟨[], [[(0, 7)]], initReorderer Nat, [], [], 0, true⟩
          : SchedState Nat).emitted) :=
  cancellation_no_results 1 _ _ rfl Relation.ReflTransGen.refl

/-- C10: in every run of src/pyper/lab.py, whatever the initial process
environment, the `Piper` handle is constructed only after both
`ORT_DYLIB_PATH` and `PIPER_ESPEAKNG_DATA_DIRECTORY` have been mutated:
the ambient environment captured by the constructed handle already
carries both script-written values, so model construction depends on
mutated process-global state and not only on the two explicit path
arguments. -/
theorem lab_env_mutation_before_piper (env0 : List (String × String)) :
    (runScript ⟨env0, none⟩ labScript).piper
      = some ⟨amyConfigPath, amyModelPath,
          setEnvVar "PIPER_ESPEAKNG_DATA_DIRECTORY" espeakDataDir
            (setEnvVar "ORT_DYLIB_PATH" ortDylibPath env0)⟩ ∧
    (∀ h : PiperHandle, (runScript ⟨env0, none⟩ labScript).piper = some h →
      envLookup "ORT_DYLIB_PATH" h.ambientEnv = some ortDylibPath ∧
      envLookup "PIPER_ESPEAKNG_DATA_DIRECTORY" h.ambientEnv
        = some espeakDataDir ∧
      h.configPath = amyConfigPath ∧ h.modelPath = amyModelPath) := by
  have hrun : (runScript ⟨env0, none⟩ labScript).piper
      = some ⟨amyConfigPath, amyModelPath,
          setEnvVar "PIPER_ESPEAKNG_DATA_DIRECTORY" espeakDataDir
            (setEnvVar "ORT_DYLIB_PATH" ortDylibPath env0)⟩ := rfl
  refine ⟨hrun, ?_⟩
  intro h hh
  rw [hrun] at hh
  have hinj := Option.some.inj hh
  subst hinj
  have hne : ("PIPER_ESPEAKNG_DATA_DIRECTORY" : String) ≠ "ORT_DYLIB_PATH" := by
    decide
  refine ⟨?_, ?_, rfl, rfl⟩
  · show envLookup "ORT_DYLIB_PATH"
      (("PIPER_ESPEAKNG_DATA_DIRECTORY", espeakDataDir)
        :: ("ORT_DYLIB_PATH", ortDylibPath) :: env0) = some ortDylibPath
    rw [envLookup, if_neg hne, envLookup, if_pos rfl]
  · show envLookup "PIPER_ESPEAKNG_DATA_DIRECTORY"
      (("PIPER_ESPEAKNG_DATA_DIRECTORY", espeakDataDir)
        :: ("ORT_DYLIB_PATH", ortDylibPath) :: env0) = some espeakDataDir
    rw [envLookup, if_pos rfl]

/-- C10 witness: the environment-capture property of the script run
from an empty initial environment. -/
theorem lab_env_mutation_before_piper_witness :
    (runScript ⟨[], none⟩ labScript).piper
      = some ⟨amyConfigPath, amyModelPath,
          setEnvVar "PIPER_ESPEAKNG_DATA_DIRECTORY" espeakDataDir
            (setEnvVar "ORT_DYLIB_PATH" ortDylibPath [])⟩ ∧
    (∀ h : PiperHandle, (runScript ⟨[], none⟩ labScript).piper = some h →
      envLookup "ORT_DYLIB_PATH" h.ambientEnv = some ortDylibPath ∧
      envLookup "PIPER_ESPEAKNG_DATA_DIRECTORY" h.ambientEnv
        = some espeakDataDir ∧
      h.configPath = amyConfigPath ∧ h.modelPath = amyModelPath) :=
  lab_env_mutation_before_piper []

end Pyper
